import Mathlib

/-!
Verification of the chunked multi-API transcription pipeline of the
karstegg/audio-transcription repository.

The JavaScript source is shallowly embedded: a file-like blob becomes a
structure holding its byte list together with its declared media type and
display name; the chunking loops, the MIME resolver, the Speech-to-Text
response formatters, the per-chunk orchestrator loop and the summary
generator become executable Lean functions.  Backend calls are modelled by
their outcomes (success text, non-abort failure, or an abort), and the
cooperative cancellation flag by a predicate on chunk indices.
-/

/-- A source file as the browser hands it to the pipeline: a byte blob plus
the declared media type (`file.type`) and display name (`file.name`).
Byte values are modelled as naturals; only their sequence matters here. -/
structure SFile where
  name : String
  type : String
  bytes : List Nat
deriving DecidableEq

/-- `Blob.size`: the number of bytes of the blob. -/
def SFile.size (f : SFile) : Nat := f.bytes.length

/-- `Blob.slice(start, end)`: the bytes in positions `[start, end)`. -/
def sliceBytes (bytes : List Nat) (s e : Nat) : List Nat :=
  (bytes.drop s).take (e - s)

/-- A chunk produced by `chunkFile`: a contiguous byte range of the parent
file, tagged (via `Object.defineProperty`) with the parent name and type. -/
structure Chunk where
  name : String
  type : String
  data : List Nat
deriving DecidableEq

/-- The `while (start < fileSize)` loop shared verbatim by
`chunkFile` in `audioProcessor.js` (lines 14-31) and `chunkFile` in
`main.js` (lines 879-897): `end = Math.min(start + maxBytes, fileSize)`,
slice `[start, end)`, copy the parent name and type onto the chunk, then
`start = end`.  The loop is guarded by `0 < maxBytes` so that it is a total
function; with `maxBytes = 0` the JavaScript loop would never terminate,
and every caller uses a positive constant. -/
def chunkFileLoop (file : SFile) (maxBytes : Nat) (start : Nat) : List Chunk :=
  if _h : start < file.size ∧ 0 < maxBytes then
    let e := min (start + maxBytes) file.size
    { name := file.name, type := file.type,
      data := sliceBytes file.bytes start e } :: chunkFileLoop file maxBytes e
  else []
termination_by file.size - start
decreasing_by omega

/-- `chunkFile` with the maximum chunk size that is in scope at the
definition site made explicit (`CONFIG.fileProcessing.maxChunkSize` in
`audioProcessor.js`, the local 15 MiB constant in `main.js`). -/
def chunkFile (file : SFile) (maxBytes : Nat) : List Chunk :=
  chunkFileLoop file maxBytes 0

/-- `CONFIG.fileProcessing.maxChunkSize` of the `config.js` variant whose
shape `audioProcessor.js` reads (the one exposing `CONFIG.api.gemini.key`
and `CONFIG.api.speechToText`): `15 * 1024 * 1024`. -/
def maxChunkSize_config_audioProcessor : Nat := 15 * 1024 * 1024

/-- `CONFIG.fileProcessing.maxChunkSize` of the `config.js` variants whose
shape the `main.js` branches read (the ones exposing `CONFIG.gemini.apiKey`):
`22 * 1024 * 1024`, commented there as about 22 MB so that the base64
encoding stays under 30 MB. -/
def maxChunkSize_config_main : Nat := 22 * 1024 * 1024

/-- `chunkFile` of `audioProcessor.js`: the loop instantiated with the
configured `CONFIG.fileProcessing.maxChunkSize` of its branch (the second
argument passed at some call sites is ignored by the source function). -/
def chunkFile_audioProcessor (file : SFile) : List Chunk :=
  chunkFile file maxChunkSize_config_audioProcessor

/-- The local constant of `chunkFile` in `main.js` line 878:
`const effectiveChunkSize = 15 * 1024 * 1024`. -/
def effectiveChunkSize : Nat := 15 * 1024 * 1024

/-- `chunkFile` of `main.js` (transcript-utilities variant, lines 876-901):
the loop instantiated with the hardcoded 15 MiB constant. -/
def chunkFile_main (file : SFile) : List Chunk :=
  chunkFile file effectiveChunkSize

/-- The `(start, end)` pairs the chunk loop walks through. -/
def chunkRanges (size maxBytes : Nat) (start : Nat) : List (Nat × Nat) :=
  if _h : start < size ∧ 0 < maxBytes then
    let e := min (start + maxBytes) size
    (start, e) :: chunkRanges size maxBytes e
  else []
termination_by size - start
decreasing_by omega

/-- Ceiling division, written out as the source comments describe it. -/
def cdiv (a b : Nat) : Nat := (a + b - 1) / b

lemma cdiv_zero (b : Nat) : cdiv 0 b = 0 := by
  unfold cdiv
  rcases Nat.eq_zero_or_pos b with h | h
  · simp [h]
  · exact Nat.div_eq_of_lt_le (by omega) (by omega)

lemma chunkFileLoop_eq_map_ranges (file : SFile) (maxBytes : Nat) :
    ∀ d start, file.size - start ≤ d →
      chunkFileLoop file maxBytes start =
        (chunkRanges file.size maxBytes start).map
          (fun r => { name := file.name, type := file.type,
                      data := sliceBytes file.bytes r.1 r.2 }) := by
  intro d
  induction d with
  | zero =>
    intro start hstart
    rw [chunkFileLoop, chunkRanges]
    have : ¬ (start < file.size ∧ 0 < maxBytes) := by omega
    simp [this]
  | succ d ih =>
    intro start hstart
    rw [chunkFileLoop, chunkRanges]
    by_cases h : start < file.size ∧ 0 < maxBytes
    · simp only [dif_pos h, List.map_cons]
      rw [ih (min (start + maxBytes) file.size) (by omega)]
    · simp [dif_neg h]

lemma chunkRanges_stride (maxBytes : Nat) :
    ∀ d size start, size - start ≤ d →
      chunkRanges size maxBytes start =
        (List.range (cdiv (size - start) maxBytes)).map
          (fun i => (start + i * maxBytes, min (start + (i + 1) * maxBytes) size)) := by
  intro d
  induction d with
  | zero =>
    intro size start hstart
    rw [chunkRanges]
    have h0 : size - start = 0 := by omega
    have hng : ¬ (start < size ∧ 0 < maxBytes) := by omega
    simp [hng, h0, cdiv_zero]
  | succ d ih =>
    intro size start hstart
    rw [chunkRanges]
    by_cases h : start < size ∧ 0 < maxBytes
    · simp only [dif_pos h]
      have hM : 0 < maxBytes := h.2
      have hcount : cdiv (size - start) maxBytes =
          cdiv (size - start - maxBytes) maxBytes + 1 := by
        by_cases hbig : maxBytes ≤ size - start
        · have harith : size - start + maxBytes - 1 =
              (size - start - maxBytes + maxBytes - 1) + maxBytes := by omega
          unfold cdiv
          rw [harith, Nat.add_div_right _ hM]
        · have h1 : size - start - maxBytes = 0 := by omega
          rw [h1, cdiv_zero]
          unfold cdiv
          exact Nat.div_eq_of_lt_le (by omega) (by omega)
      rw [hcount, List.range_succ_eq_map, List.map_cons, List.map_map]
      simp only [List.cons.injEq]
      constructor
      · simp
      · rw [ih size (min (start + maxBytes) size) (by omega)]
        have harg : size - min (start + maxBytes) size =
            size - start - maxBytes := by omega
        rw [harg]
        by_cases hble : start + maxBytes ≤ size
        · have he : min (start + maxBytes) size = start + maxBytes := by omega
          rw [he]
          apply List.map_congr_left
          intro i _
          simp only [Function.comp_apply, Nat.succ_eq_add_one]
          have e1 : start + maxBytes + i * maxBytes = start + (i + 1) * maxBytes := by
            ring
          have e2 : start + maxBytes + (i + 1) * maxBytes =
              start + (i + 1 + 1) * maxBytes := by ring
          rw [e1, e2]
        · have hz : size - start - maxBytes = 0 := by omega
          rw [hz, cdiv_zero]
          simp
    · simp only [dif_neg h]
      have h0 : size - start = 0 ∨ maxBytes = 0 := by omega
      have hc : cdiv (size - start) maxBytes = 0 := by
        rcases h0 with h0 | h0
        · rw [h0, cdiv_zero]
        · unfold cdiv
          simp [h0]
      simp [hc]

lemma chunkRanges_join_slices (bytes : List Nat) (maxBytes : Nat) (hM : 0 < maxBytes) :
    ∀ d start, bytes.length - start ≤ d →
      ((chunkRanges bytes.length maxBytes start).map
        (fun r => sliceBytes bytes r.1 r.2)).flatten = bytes.drop start := by
  intro d
  induction d with
  | zero =>
    intro start hstart
    rw [chunkRanges]
    have hng : ¬ (start < bytes.length ∧ 0 < maxBytes) := by omega
    rw [dif_neg hng]
    have hle : bytes.length ≤ start := by omega
    simp [List.drop_eq_nil_of_le hle]
  | succ d ih =>
    intro start hstart
    rw [chunkRanges]
    by_cases h : start < bytes.length ∧ 0 < maxBytes
    · simp only [dif_pos h, List.map_cons, List.flatten_cons]
      rw [ih (min (start + maxBytes) bytes.length) (by omega)]
      have hdd : (bytes.drop start).drop
            (min (start + maxBytes) bytes.length - start) =
          bytes.drop (min (start + maxBytes) bytes.length) := by
        rw [List.drop_drop]
        congr 1
        omega
      calc sliceBytes bytes start (min (start + maxBytes) bytes.length) ++
              bytes.drop (min (start + maxBytes) bytes.length)
          = (bytes.drop start).take
              (min (start + maxBytes) bytes.length - start) ++
            (bytes.drop start).drop
              (min (start + maxBytes) bytes.length - start) := by
            rw [hdd]; rfl
        _ = bytes.drop start := List.take_append_drop _ _
    · simp only [dif_neg h]
      have hle : bytes.length ≤ start := by omega
      simp [List.drop_eq_nil_of_le hle]

lemma chunkFile_eq_map_ranges (file : SFile) (maxBytes : Nat) :
    chunkFile file maxBytes =
      (chunkRanges file.size maxBytes 0).map
        (fun r => { name := file.name, type := file.type,
                    data := sliceBytes file.bytes r.1 r.2 }) :=
  chunkFileLoop_eq_map_ranges file maxBytes file.size 0 (by omega)

/-- Claim C1: for every file and positive maximum chunk size, the chunks
returned by `chunkFile` cover the file exactly: concatenating the chunk
byte ranges in index order reproduces the file bytes, for a nonempty file
the number of chunks is the ceiling of size over maximum, and chunk `i`
spans `[i * M, min ((i + 1) * M, size))`, the starts walking from 0 in
strides of `M`. -/
theorem chunkFile_covers (f : SFile) (M : Nat) (hM : 0 < M) :
    (((chunkFile f M).map Chunk.data).flatten = f.bytes) ∧
    (0 < f.size → (chunkFile f M).length = (f.size + M - 1) / M) ∧
    ((chunkFile f M).map Chunk.data =
      (List.range ((f.size + M - 1) / M)).map
        (fun i => sliceBytes f.bytes (i * M) (min ((i + 1) * M) f.size))) := by
  have hmap := chunkFile_eq_map_ranges f M
  have hstride := chunkRanges_stride M f.size f.size 0 (by omega)
  simp only [Nat.sub_zero, Nat.zero_add] at hstride
  refine ⟨?_, ?_, ?_⟩
  · rw [hmap, List.map_map]
    have hj := chunkRanges_join_slices f.bytes M hM f.bytes.length 0 (by omega)
    rw [List.drop_zero] at hj
    exact hj
  · intro _
    rw [hmap, List.length_map, hstride, List.length_map, List.length_range]
    rfl
  · rw [hmap, List.map_map, hstride, List.map_map]
    show _ = (List.range (cdiv f.size M)).map _
    apply List.map_congr_left
    intro i _
    simp [Function.comp]

/-- Claim C1 witness: a 10-byte file with maximum chunk size 4 yields the
three chunks `[0,4)`, `[4,8)`, `[8,10)`, which concatenate back to the
file, and `3 = ceil (10 / 4)`. -/
theorem chunkFile_covers_witness :
    0 < 4 ∧
    ((((chunkFile ⟨"a.mp3", "audio/mpeg", [0,1,2,3,4,5,6,7,8,9]⟩ 4).map
        Chunk.data).flatten = [0,1,2,3,4,5,6,7,8,9]) ∧
     (0 < (SFile.mk "a.mp3" "audio/mpeg" [0,1,2,3,4,5,6,7,8,9]).size →
       (chunkFile ⟨"a.mp3", "audio/mpeg", [0,1,2,3,4,5,6,7,8,9]⟩ 4).length =
        ((SFile.mk "a.mp3" "audio/mpeg" [0,1,2,3,4,5,6,7,8,9]).size + 4 - 1) / 4) ∧
     ((chunkFile ⟨"a.mp3", "audio/mpeg", [0,1,2,3,4,5,6,7,8,9]⟩ 4).map Chunk.data =
       (List.range (((SFile.mk "a.mp3" "audio/mpeg" [0,1,2,3,4,5,6,7,8,9]).size + 4 - 1) / 4)).map
         (fun i => sliceBytes [0,1,2,3,4,5,6,7,8,9] (i * 4)
           (min ((i + 1) * 4) (SFile.mk "a.mp3" "audio/mpeg" [0,1,2,3,4,5,6,7,8,9]).size)))) :=
  ⟨by decide, chunkFile_covers ⟨"a.mp3", "audio/mpeg", [0,1,2,3,4,5,6,7,8,9]⟩ 4 (by decide)⟩

/-- Claim C5: every chunk produced by `chunkFile` carries the parent file
name and declared media type verbatim, for all inputs.  In the embedding a
chunk is an immutable value whose fields are set once at construction,
matching the non-writable `Object.defineProperty` fields of the source. -/
theorem chunk_metadata_propagation (f : SFile) (M : Nat) :
    ∀ c ∈ chunkFile f M, c.name = f.name ∧ c.type = f.type := by
  intro c hc
  rw [chunkFile_eq_map_ranges] at hc
  obtain ⟨r, _, rfl⟩ := List.mem_map.mp hc
  exact ⟨rfl, rfl⟩

/-- Claim C5 witness: the single chunk of a 2-byte file keeps the parent
name `rec.mp3` and type `audio/mpeg`. -/
theorem chunk_metadata_propagation_witness :
    (Chunk.mk "rec.mp3" "audio/mpeg" [7, 8]).name = "rec.mp3" ∧
    (Chunk.mk "rec.mp3" "audio/mpeg" [7, 8]).type = "audio/mpeg" :=
  chunk_metadata_propagation ⟨"rec.mp3", "audio/mpeg", [7, 8]⟩ 4
    (Chunk.mk "rec.mp3" "audio/mpeg" [7, 8])
    (by simp [chunkFile, chunkFileLoop, SFile.size, sliceBytes])

/-- Claim C10: a file of size zero yields the empty chunk sequence in both
source variants of `chunkFile`, because the loop condition
`start < fileSize` is already false at `start = 0`. -/
theorem chunkFile_empty_input (name mediaType : String) :
    chunkFile_main ⟨name, mediaType, []⟩ = [] ∧
    chunkFile_audioProcessor ⟨name, mediaType, []⟩ = [] := by
  constructor <;>
    simp [chunkFile_main, chunkFile_audioProcessor, chunkFile, chunkFileLoop,
      SFile.size]

lemma chunkFile_length (f : SFile) (M : Nat) :
    (chunkFile f M).length = cdiv f.size M := by
  rw [chunkFile_eq_map_ranges, List.length_map,
    chunkRanges_stride M f.size f.size 0 (by omega), List.length_map,
    List.length_range, Nat.sub_zero]

/-- Claim C6 counterexample: `processLargeFile` chunks with the local
hardcoded 15 MiB constant, not with the `22 * 1024 * 1024` its branch
configures as `CONFIG.fileProcessing.maxChunkSize`: a 16 MiB file comes out
as two chunks, where invoking the chunker with the configured value would
give one, so the chunking stage does not invoke the chunker with the
configured maximum. -/
theorem chunking_config_counterexample :
    (chunkFile_main
      ⟨"a.mp3", "audio/mpeg", List.replicate (16 * 1024 * 1024) 0⟩).length = 2 ∧
    (chunkFile ⟨"a.mp3", "audio/mpeg", List.replicate (16 * 1024 * 1024) 0⟩
      maxChunkSize_config_main).length = 1 ∧
    chunkFile_main ⟨"a.mp3", "audio/mpeg", List.replicate (16 * 1024 * 1024) 0⟩ ≠
      chunkFile ⟨"a.mp3", "audio/mpeg", List.replicate (16 * 1024 * 1024) 0⟩
        maxChunkSize_config_main := by
  have hsize : (SFile.mk "a.mp3" "audio/mpeg"
      (List.replicate (16 * 1024 * 1024) 0)).size = 16 * 1024 * 1024 := by
    rw [SFile.size, List.length_replicate]
  have h1 : (chunkFile_main
      ⟨"a.mp3", "audio/mpeg", List.replicate (16 * 1024 * 1024) 0⟩).length = 2 := by
    rw [chunkFile_main, chunkFile_length, hsize, effectiveChunkSize]
    norm_num [cdiv]
  have h2 : (chunkFile ⟨"a.mp3", "audio/mpeg", List.replicate (16 * 1024 * 1024) 0⟩
      maxChunkSize_config_main).length = 1 := by
    rw [chunkFile_length, hsize, maxChunkSize_config_main]
    norm_num [cdiv]
  refine ⟨h1, h2, fun heq => ?_⟩
  have hlen := congrArg List.length heq
  rw [h1, h2] at hlen
  exact absurd hlen (by norm_num)

lemma chunk_data_length_le (f : SFile) (M : Nat) :
    ∀ c ∈ chunkFile f M, c.data.length ≤ M := by
  intro c hc
  rw [chunkFile_eq_map_ranges] at hc
  obtain ⟨r, hr, rfl⟩ := List.mem_map.mp hc
  rw [chunkRanges_stride M f.size f.size 0 (by omega)] at hr
  obtain ⟨i, _, rfl⟩ := List.mem_map.mp hr
  simp only [sliceBytes, List.length_take]
  have hmul : (i + 1) * M = i * M + M := by ring
  omega

/-- Claim C6 (amended): the chunking stage of `processLargeFile` calls the
local `main.js` chunker, which uses the hardcoded 15 MiB constant in place
of the 22 MiB its branch configures as
`CONFIG.fileProcessing.maxChunkSize`, so its chunks are bounded by
`15 * 1024 * 1024` bytes — and a fortiori stay within the configured
22 MiB — while the `audioProcessor.js` chunker is the one that chunks with
the `CONFIG.fileProcessing.maxChunkSize` of its branch. -/
theorem chunk_size_bound_amended (f : SFile) :
    (∀ c ∈ chunkFile_main f, c.data.length ≤ effectiveChunkSize) ∧
    (∀ c ∈ chunkFile_main f, c.data.length ≤ maxChunkSize_config_main) ∧
    (∀ c ∈ chunkFile_audioProcessor f,
      c.data.length ≤ maxChunkSize_config_audioProcessor) := by
  refine ⟨fun c hc => chunk_data_length_le f effectiveChunkSize c hc, ?_,
    fun c hc => chunk_data_length_le f maxChunkSize_config_audioProcessor c hc⟩
  intro c hc
  have hle := chunk_data_length_le f effectiveChunkSize c hc
  have hcfg : effectiveChunkSize ≤ maxChunkSize_config_main := by
    norm_num [effectiveChunkSize, maxChunkSize_config_main]
  omega

/-- Claim C6 (amended) witness: the single chunk of a 1-byte file is within
the hardcoded 15 MiB bound, within the configured 22 MiB of the `main.js`
branches, and within the configured 15 MiB of the `audioProcessor.js`
branch. -/
theorem chunk_size_bound_amended_witness :
    (Chunk.mk "a.mp3" "audio/mpeg" [7]).data.length ≤ effectiveChunkSize ∧
    (Chunk.mk "a.mp3" "audio/mpeg" [7]).data.length ≤ maxChunkSize_config_main ∧
    (Chunk.mk "a.mp3" "audio/mpeg" [7]).data.length ≤
      maxChunkSize_config_audioProcessor := by
  have h := chunk_size_bound_amended ⟨"a.mp3", "audio/mpeg", [7]⟩
  have hm : (Chunk.mk "a.mp3" "audio/mpeg" [7]) ∈
      chunkFile_main ⟨"a.mp3", "audio/mpeg", [7]⟩ := by
    simp [chunkFile_main, chunkFile, chunkFileLoop, SFile.size, sliceBytes,
      effectiveChunkSize]
  have ha : (Chunk.mk "a.mp3" "audio/mpeg" [7]) ∈
      chunkFile_audioProcessor ⟨"a.mp3", "audio/mpeg", [7]⟩ := by
    simp [chunkFile_audioProcessor, chunkFile, chunkFileLoop, SFile.size,
      sliceBytes, maxChunkSize_config_audioProcessor]
  exact ⟨h.1 _ hm, h.2.1 _ hm, h.2.2 _ ha⟩

/-- JS `prefix.startsWith` check as used on declared types: `strStartsWith p s`
holds when `p` is a prefix of the code units of `s`. -/
def strStartsWith (p s : String) : Bool := p.data.isPrefixOf s.data

/-- JS `String.prototype.toLowerCase`, character by character (every key of
the extension table is ASCII). -/
def jsToLowerCase (s : String) : String := ⟨s.data.map Char.toLower⟩

/-- JS `name.split(".").pop()`: the suffix after the last dot, or the whole
string when the name holds no dot (JS `split` then returns the one-element
array `[name]`). -/
def popLastDotSegment (s : String) : String :=
  ⟨(s.data.reverse.takeWhile (fun c => c != '.')).reverse⟩

/-- The fixed extension table of `getAudioMimeType` (`main.js` lines
842-856). -/
def mimeTypes : List (String × String) :=
  [("mp3", "audio/mpeg"), ("wav", "audio/wav"), ("ogg", "audio/ogg"),
   ("webm", "audio/webm"), ("m4a", "audio/mp4"), ("aac", "audio/aac"),
   ("flac", "audio/flac"), ("mp4", "video/mp4"), ("mov", "video/quicktime"),
   ("avi", "video/x-msvideo"), ("mkv", "video/x-matroska")]

/-- The guard of `getAudioMimeType` line 835: the declared type is truthy
and starts with `audio/` or `video/`. -/
def mimeDeclared (t : String) : Bool :=
  (!(t == "")) && (strStartsWith "audio/" t || strStartsWith "video/" t)

/-- `getAudioMimeType` (`main.js` lines 833-859): return a usable declared
type unchanged, else look the lowercased last dot-segment of the name up in
the extension table, defaulting to `audio/mpeg`. -/
def getAudioMimeType (declaredType name : String) : String :=
  if mimeDeclared declaredType then declaredType
  else
    ((mimeTypes.lookup (jsToLowerCase (popLastDotSegment name))).getD
      "audio/mpeg")

/-- The MIME resolution as claim C3 words it: the key is the substring
after the last dot of the name, and a name with no extension at all (no
dot) defaults to `audio/mpeg`. -/
def resolveMediaTypeClaim (declaredType name : String) : String :=
  if mimeDeclared declaredType then declaredType
  else if name.data.contains '.' then
    ((mimeTypes.lookup (jsToLowerCase (popLastDotSegment name))).getD
      "audio/mpeg")
  else "audio/mpeg"

/-- Claim C3 counterexample: a file with empty declared type named by the
bare string `wav` (no dot, hence no extension) is mapped through the table
to `audio/wav` by the code, while the claim prescribes the default
`audio/mpeg` for names with no extension at all. -/
theorem mime_noext_counterexample :
    getAudioMimeType "" "wav" = "audio/wav" ∧
    resolveMediaTypeClaim "" "wav" = "audio/mpeg" := by
  constructor <;> decide

lemma popLastDotSegment_no_dot (name : String) (h : '.' ∉ name.data) :
    popLastDotSegment name = name := by
  obtain ⟨l⟩ := name
  simp only [popLastDotSegment]
  congr 1
  have hall : ∀ c ∈ l.reverse, (c != '.') = true := by
    intro c hc
    rw [List.mem_reverse] at hc
    simp only [bne_iff_ne, ne_eq]
    intro hceq
    exact h (hceq ▸ hc)
  rw [List.takeWhile_eq_self_iff.mpr hall, List.reverse_reverse]

lemma popLastDotSegment_dot (name : String) (h : '.' ∈ name.data) :
    ∃ pre, name.data = pre ++ '.' :: (popLastDotSegment name).data ∧
      '.' ∉ (popLastDotSegment name).data := by
  obtain ⟨l⟩ := name
  simp only [popLastDotSegment] at *
  set p : Char → Bool := fun c => c != '.' with hp
  have hsplit : l.reverse.takeWhile p ++ l.reverse.dropWhile p = l.reverse :=
    List.takeWhile_append_dropWhile p l.reverse
  have hdnil : l.reverse.dropWhile p ≠ [] := by
    intro hnil
    have hall := List.dropWhile_eq_nil_iff.mp hnil '.' (List.mem_reverse.mpr h)
    simp [hp] at hall
  obtain ⟨c, d2, hd⟩ := List.exists_cons_of_ne_nil hdnil
  have hc : c = '.' := by
    have hpos : 0 < (l.reverse.dropWhile p).length := by
      rw [hd]; simp
    have hnot := List.dropWhile_get_zero_not (p := p) l.reverse hpos
    have hget : (l.reverse.dropWhile p).get ⟨0, hpos⟩ = c := by
      simp [hd]
    rw [hget] at hnot
    simpa [hp] using hnot
  refine ⟨d2.reverse, ?_, ?_⟩
  · have hlrev : l.reverse = l.reverse.takeWhile p ++ '.' :: d2 := by
      rw [← hc, ← hd, hsplit]
    have h2 : l = (l.reverse.takeWhile p ++ '.' :: d2).reverse := by
      rw [← hlrev, List.reverse_reverse]
    exact h2.trans (by simp)
  · intro hmem
    rw [List.mem_reverse] at hmem
    have := List.mem_takeWhile_imp hmem
    simp [hp] at this

/-- Claim C3 (amended): the resolver returns a usable declared audio/video
type unchanged; otherwise the lookup key is the lowercased suffix after the
last dot of the name when a dot occurs, and the whole lowercased name when
none does — so a dot-free name equal to a known extension maps through the
table — with `audio/mpeg` the default for keys absent from the table. -/
theorem mime_resolution_amended (declaredType name : String) :
    (mimeDeclared declaredType = true →
      getAudioMimeType declaredType name = declaredType) ∧
    (mimeDeclared declaredType = false →
      getAudioMimeType declaredType name =
        ((mimeTypes.lookup (jsToLowerCase (popLastDotSegment name))).getD
          "audio/mpeg")) ∧
    ('.' ∉ name.data → popLastDotSegment name = name) ∧
    ('.' ∈ name.data →
      ∃ pre, name.data = pre ++ '.' :: (popLastDotSegment name).data ∧
        '.' ∉ (popLastDotSegment name).data) := by
  refine ⟨?_, ?_, popLastDotSegment_no_dot name, popLastDotSegment_dot name⟩
  · intro h
    simp [getAudioMimeType, h]
  · intro h
    simp [getAudioMimeType, h]

/-- Claim C3 (amended) witness: with empty declared type, the name
`tape.FLAC` resolves through the lowercased suffix `flac` to
`audio/flac`. -/
theorem mime_resolution_amended_witness :
    getAudioMimeType "" "tape.FLAC" = "audio/flac" := by
  have h := (mime_resolution_amended "" "tape.FLAC").2.1 (by decide)
  rw [h]
  decide

/-- Whitespace in the sense of the trim the formatter applies; the
assembled transcripts only ever carry spaces and newlines at their edges. -/
def jsWhitespace (c : Char) : Bool := c = ' ' || c = '\t' || c = '\n' || c = '\r'

/-- JS `String.prototype.trim`: strip leading and trailing whitespace. -/
def jsTrim (s : String) : String :=
  ⟨((s.data.dropWhile jsWhitespace).reverse.dropWhile jsWhitespace).reverse⟩

/-- JS `Array.prototype.join(sep)`. -/
def jsJoin (sep : String) : List String → String
  | [] => ""
  | [x] => x
  | x :: y :: rest => x ++ sep ++ jsJoin sep (y :: rest)

/-- One word of a speech-recognition response, with its optional speaker
tag. -/
structure WordInfo where
  word : String
  speakerTag : Option Nat
deriving DecidableEq

/-- One alternative of a result segment: a transcript and its word-level
detail. -/
structure SpeechAlternative where
  transcript : String
  words : List WordInfo
deriving DecidableEq

/-- One result segment of a speech-recognition response. -/
structure SpeechResult where
  alternatives : List SpeechAlternative
deriving DecidableEq

/-- JS `wordInfo.speakerTag || 1`: a missing (or zero, hence falsy) tag
defaults to 1. -/
def effTag (tag : Option Nat) : Nat :=
  match tag with
  | none => 1
  | some t => if t = 0 then 1 else t

/-- The paragraph break plus speaker label the diarization formatter
emits. -/
def speakerLabel (tag : Nat) : String := "\n\nSpeaker " ++ toString tag ++ ": "

/-- The per-word body of the diarization formatter
(`speechClient.js` lines 289-298): emit the label when the running
`currentSpeaker` differs from this word's effective tag, then append the
word and a space. -/
def diarWordStep (st : String × Option Nat) (w : WordInfo) : String × Option Nat :=
  let tag := effTag w.speakerTag
  let st1 := if st.2 ≠ some tag then (st.1 ++ speakerLabel tag, some tag) else st
  (st1.1 ++ (w.word ++ " "), st1.2)

/-- The per-result body of the diarization formatter (`speechClient.js`
lines 283-304): skip a segment with no alternatives; walk the top
alternative's words when present, else append its whole transcript. -/
def diarResultStep (st : String × Option Nat) (r : SpeechResult) : String × Option Nat :=
  match r.alternatives with
  | [] => st
  | alt :: _ =>
    match alt.words with
    | [] => (st.1 ++ alt.transcript, st.2)
    | w :: ws => List.foldl diarWordStep st (w :: ws)

/-- `result.alternatives[0].transcript` of the non-diarization path: a JS
field access that throws when the alternatives array is empty. -/
def mapTopTranscripts : List SpeechResult → Except String (List String)
  | [] => .ok []
  | r :: rs =>
    match r.alternatives with
    | [] => .error "TypeError: no alternatives"
    | a :: _ => (mapTopTranscripts rs).map (fun ts => a.transcript :: ts)

/-- The response-to-text extraction of `transcribeAudioWithSpeechToText`
(`speechClient.js` lines 273-312): empty results yield the empty string;
with diarization the word-walking formatter runs and its output is
trimmed; without it the top transcripts are joined with a single space. -/
def sttExtract (enableSpeakerDiarization : Bool) (results : List SpeechResult) :
    Except String String :=
  if results.isEmpty then .ok ""
  else if enableSpeakerDiarization then
    .ok (jsTrim (List.foldl diarResultStep ("", none) results).1)
  else
    (mapTopTranscripts results).map (fun ts => jsJoin " " ts)

/-- The response-to-text extraction of the legacy
`transcribeWithSpeechToText` (`speechClient.js` lines 65-68): top
transcripts joined with a newline, no diarization handling and no
empty-results guard. -/
def transcribeWithSpeechToText (results : List SpeechResult) : Except String String :=
  (mapTopTranscripts results).map (fun ts => jsJoin "\n" ts)

/-- The label of claim C4, emitted exactly when this word's tag differs
from the previous word's tag. -/
def labelIfChanged (prev : Option Nat) (tag : Nat) : String :=
  if prev ≠ some tag then speakerLabel tag else ""

/-- The word walk as claim C4 words it: before each word whose effective
tag differs from the previous word's tag, a paragraph break and a speaker
label. -/
def specWords (prev : Option Nat) : List WordInfo → String
  | [] => ""
  | w :: ws =>
    labelIfChanged prev (effTag w.speakerTag) ++
      ((w.word ++ " ") ++ specWords (some (effTag w.speakerTag)) ws)

/-- The tag of the last word of the list, or `prev` when there is none. -/
def lastWordTag (prev : Option Nat) : List WordInfo → Option Nat
  | [] => prev
  | w :: ws => lastWordTag (some (effTag w.speakerTag)) ws

/-- The segment walk as claim C4 words it: each segment's top alternative's
word list is walked with the previous word's tag carried across segments;
a segment whose top alternative has no word list contributes its whole
transcript unlabeled. -/
def specSegments (prev : Option Nat) : List SpeechResult → String
  | [] => ""
  | r :: rs =>
    match r.alternatives with
    | [] => specSegments prev rs
    | alt :: _ =>
      match alt.words with
      | [] => alt.transcript ++ specSegments prev rs
      | w :: ws =>
        specWords prev (w :: ws) ++ specSegments (lastWordTag prev (w :: ws)) rs

/-- The previous-word tag after walking a list of segments. -/
def specSegmentsTag (prev : Option Nat) : List SpeechResult → Option Nat
  | [] => prev
  | r :: rs =>
    match r.alternatives with
    | [] => specSegmentsTag prev rs
    | alt :: _ =>
      match alt.words with
      | [] => specSegmentsTag prev rs
      | w :: ws => specSegmentsTag (lastWordTag prev (w :: ws)) rs

/-- The diarization formatting of claim C4, assembled statelessly from the
claim text and trimmed. -/
def formatDiarizedSpec (results : List SpeechResult) : String :=
  jsTrim (specSegments none results)

lemma diar_words_fold (ws : List WordInfo) :
    ∀ acc prev, List.foldl diarWordStep (acc, prev) ws =
      (acc ++ specWords prev ws, lastWordTag prev ws) := by
  induction ws with
  | nil =>
    intro acc prev
    simp [specWords, lastWordTag]
  | cons w ws ih =>
    intro acc prev
    rw [List.foldl_cons]
    by_cases hcase : prev = some (effTag w.speakerTag)
    · have hstep : diarWordStep (acc, prev) w = (acc ++ (w.word ++ " "), prev) := by
        simp [diarWordStep, hcase]
      rw [hstep, ih]
      simp [specWords, labelIfChanged, lastWordTag, hcase, String.append_assoc]
    · have hstep : diarWordStep (acc, prev) w =
          ((acc ++ speakerLabel (effTag w.speakerTag)) ++ (w.word ++ " "),
            some (effTag w.speakerTag)) := by
        simp [diarWordStep, hcase]
      rw [hstep, ih]
      simp [specWords, labelIfChanged, lastWordTag, hcase, String.append_assoc]

lemma diar_results_fold (results : List SpeechResult) :
    ∀ acc prev, List.foldl diarResultStep (acc, prev) results =
      (acc ++ specSegments prev results, specSegmentsTag prev results) := by
  induction results with
  | nil =>
    intro acc prev
    simp [specSegments, specSegmentsTag]
  | cons r rs ih =>
    intro acc prev
    rw [List.foldl_cons]
    match hr : r.alternatives with
    | [] =>
      have hstep : diarResultStep (acc, prev) r = (acc, prev) := by
        simp [diarResultStep, hr]
      rw [hstep, ih]
      simp [specSegments, specSegmentsTag, hr]
    | alt :: rest =>
      match hw : alt.words with
      | [] =>
        have hstep : diarResultStep (acc, prev) r = (acc ++ alt.transcript, prev) := by
          simp [diarResultStep, hr, hw]
        rw [hstep, ih]
        simp [specSegments, specSegmentsTag, hr, hw, String.append_assoc]
      | w :: ws =>
        have hstep : diarResultStep (acc, prev) r =
            (acc ++ specWords prev (w :: ws), lastWordTag prev (w :: ws)) := by
          simp only [diarResultStep, hr, hw]
          exact diar_words_fold (w :: ws) acc prev
        rw [hstep, ih]
        simp [specSegments, specSegmentsTag, hr, hw, String.append_assoc]

/-- Claim C4: with diarization requested and at least one result segment,
the formatter output is exactly the claim's stateless description — walk
each segment's top alternative's words, label whenever the effective tag
(default 1 when absent) differs from the previous word's tag, append
wordless segments' transcripts unlabeled — trimmed of leading and trailing
whitespace. -/
theorem diarization_formatting (results : List SpeechResult)
    (h : results ≠ []) :
    sttExtract true results = .ok (formatDiarizedSpec results) := by
  unfold sttExtract formatDiarizedSpec
  rw [if_neg (by simpa using h)]
  rw [if_pos rfl]
  rw [diar_results_fold results "" none]
  simp [String.empty_append]

/-- Claim C4 witness: the spec scenario — five words with speaker tags
1,1,2,2,1 — yields exactly three labels, in order 1, 2, 1. -/
theorem diarization_formatting_witness :
    sttExtract true
      [⟨[⟨"hello there hi yes ok",
          [⟨"hello", some 1⟩, ⟨"there", some 1⟩, ⟨"hi", some 2⟩,
           ⟨"yes", some 2⟩, ⟨"ok", some 1⟩]⟩]⟩] =
      .ok "Speaker 1: hello there \n\nSpeaker 2: hi yes \n\nSpeaker 1: ok" := by
  have h := diarization_formatting
    [⟨[⟨"hello there hi yes ok",
        [⟨"hello", some 1⟩, ⟨"there", some 1⟩, ⟨"hi", some 2⟩,
         ⟨"yes", some 2⟩, ⟨"ok", some 1⟩]⟩]⟩] (by simp)
  rw [h]
  rfl

/-- The top transcript of a result segment, for stating what a successful
extraction returns. -/
def headTranscript (r : SpeechResult) : String :=
  match r.alternatives with
  | [] => ""
  | a :: _ => a.transcript

lemma mapTopTranscripts_ok (results : List SpeechResult)
    (h : ∀ r ∈ results, r.alternatives ≠ []) :
    mapTopTranscripts results = .ok (results.map headTranscript) := by
  induction results with
  | nil => rfl
  | cons r rs ih =>
    match hr : r.alternatives with
    | [] => exact absurd hr (h r (List.mem_cons_self r rs))
    | a :: rest =>
      simp only [mapTopTranscripts, hr, List.map_cons]
      rw [ih (fun x hx => h x (List.mem_cons_of_mem r hx))]
      simp [headTranscript, hr, Except.map]

/-- Claim C7 counterexample: the legacy `transcribeWithSpeechToText`
(`speechClient.js` lines 65-68) joins the two segment transcripts with a
newline, not with the single space the claim states. -/
theorem stt_space_join_counterexample :
    transcribeWithSpeechToText
        [⟨[⟨"alpha", []⟩]⟩, ⟨[⟨"beta", []⟩]⟩] = .ok "alpha\nbeta" ∧
    ("alpha\nbeta" : String) ≠ "alpha beta" := by
  constructor
  · rfl
  · decide

/-- Claim C7 (amended): without diarization, and when every result segment
has a top alternative, `transcribeAudioWithSpeechToText` returns the top
transcripts joined with a single space in segment order, while the legacy
`transcribeWithSpeechToText` joins them with a newline. -/
theorem stt_join_policy_amended (results : List SpeechResult)
    (h : ∀ r ∈ results, r.alternatives ≠ []) :
    sttExtract false results = .ok (jsJoin " " (results.map headTranscript)) ∧
    transcribeWithSpeechToText results =
      .ok (jsJoin "\n" (results.map headTranscript)) := by
  constructor
  · cases results with
    | nil => rfl
    | cons r rs =>
      unfold sttExtract
      rw [if_neg (by simp)]
      rw [if_neg (by simp)]
      rw [mapTopTranscripts_ok _ h]
      rfl
  · unfold transcribeWithSpeechToText
    rw [mapTopTranscripts_ok _ h]
    rfl

/-- Claim C7 (amended) witness: a two-segment response joins to
`alpha beta` in the dual-API client and to the newline-separated form in
the legacy client. -/
theorem stt_join_policy_amended_witness :
    sttExtract false [⟨[⟨"alpha", []⟩]⟩, ⟨[⟨"beta", []⟩]⟩] = .ok "alpha beta" ∧
    transcribeWithSpeechToText [⟨[⟨"alpha", []⟩]⟩, ⟨[⟨"beta", []⟩]⟩] =
      .ok "alpha\nbeta" := by
  have h := stt_join_policy_amended
    [⟨[⟨"alpha", []⟩]⟩, ⟨[⟨"beta", []⟩]⟩] (by decide)
  exact ⟨h.1.trans (by rfl), h.2.trans (by rfl)⟩

/-- The observable outcome of one potential backend call of the chunk
loop: transcript text, a non-abort failure, or an abort raised while the
call was in flight. -/
inductive ChunkOutcome where
  | success (text : String)
  | failure (msg : String)
  | abortedCall
deriving DecidableEq

/-- The placeholder appended in place of chunk `i`'s transcript
(`main.js` line 989), carrying the 1-based part number. -/
def errorPlaceholder (i : Nat) : String :=
  " [Error transcribing part " ++ toString (i + 1) ++ "] "

/-- What loop iteration `i` appends to the accumulated transcript. -/
def segmentOf (i : Nat) (o : ChunkOutcome) : String :=
  match o with
  | .success t => t ++ " "
  | _ => errorPlaceholder i

/-- The appended segments from loop index `i` on. -/
def segmentsFrom (i : Nat) : List ChunkOutcome → List String
  | [] => []
  | o :: rest => segmentOf i o :: segmentsFrom (i + 1) rest

/-- Concatenation of the segments in index order. -/
def concatSegments : List String → String
  | [] => ""
  | s :: ss => s ++ concatSegments ss

/-- The chunk loop of `processLargeFile` (`main.js` lines 962-991): before
each chunk the cooperative abort flag is checked and an `AbortError` thrown
when set; a successful backend call appends its text plus a space; an
`AbortError` out of the in-flight call is re-thrown; any other error
appends the placeholder and the loop continues with the next chunk.  The
result pairs the number of backend calls made with the abort or the final
accumulated transcript. -/
def runChunksAux (aborted : Nat → Bool) :
    List ChunkOutcome → Nat → Nat → String → Nat × Except Unit String
  | [], _, calls, acc => (calls, .ok acc)
  | o :: rest, i, calls, acc =>
    if aborted i then (calls, .error ())
    else
      match o with
      | .success t =>
          runChunksAux aborted rest (i + 1) (calls + 1) (acc ++ (t ++ " "))
      | .failure _ =>
          runChunksAux aborted rest (i + 1) (calls + 1) (acc ++ errorPlaceholder i)
      | .abortedCall => (calls + 1, .error ())

/-- `processLargeFile` over the outcomes of the potential backend calls. -/
def processLargeFile (aborted : Nat → Bool) (outcomes : List ChunkOutcome) :
    Nat × Except Unit String :=
  runChunksAux aborted outcomes 0 0 ""

lemma runChunksAux_no_abort :
    ∀ (outcomes : List ChunkOutcome),
      (∀ o ∈ outcomes, o ≠ ChunkOutcome.abortedCall) →
      ∀ i calls acc,
        runChunksAux (fun _ => false) outcomes i calls acc =
          (calls + outcomes.length,
            .ok (acc ++ concatSegments (segmentsFrom i outcomes))) := by
  intro outcomes
  induction outcomes with
  | nil =>
    intro _ i calls acc
    simp [runChunksAux, segmentsFrom, concatSegments]
  | cons o rest ih =>
    intro hno i calls acc
    have hno2 : ∀ x ∈ rest, x ≠ ChunkOutcome.abortedCall :=
      fun x hx => hno x (List.mem_cons_of_mem o hx)
    cases o with
    | success t =>
      rw [show runChunksAux (fun _ => false) (ChunkOutcome.success t :: rest)
            i calls acc =
          runChunksAux (fun _ => false) rest (i + 1) (calls + 1)
            (acc ++ (t ++ " ")) from by simp [runChunksAux]]
      rw [ih hno2]
      simp only [Prod.mk.injEq, List.length_cons, segmentsFrom, segmentOf,
        concatSegments]
      exact ⟨by omega, by rw [String.append_assoc]⟩
    | failure m =>
      rw [show runChunksAux (fun _ => false) (ChunkOutcome.failure m :: rest)
            i calls acc =
          runChunksAux (fun _ => false) rest (i + 1) (calls + 1)
            (acc ++ errorPlaceholder i) from by simp [runChunksAux]]
      rw [ih hno2]
      simp only [Prod.mk.injEq, List.length_cons, segmentsFrom, segmentOf,
        concatSegments]
      exact ⟨by omega, by rw [String.append_assoc]⟩
    | abortedCall =>
      exact absurd rfl (hno ChunkOutcome.abortedCall (List.mem_cons_self _ _))

lemma segmentsFrom_length (outcomes : List ChunkOutcome) :
    ∀ i, (segmentsFrom i outcomes).length = outcomes.length := by
  induction outcomes with
  | nil => intro i; rfl
  | cons o rest ih => intro i; simp [segmentsFrom, ih (i + 1)]

lemma segmentsFrom_get (outcomes : List ChunkOutcome) :
    ∀ i k, (segmentsFrom i outcomes)[k]? =
      (outcomes[k]?).map (fun o => segmentOf (i + k) o) := by
  induction outcomes with
  | nil => intro i k; simp [segmentsFrom]
  | cons o rest ih =>
    intro i k
    cases k with
    | zero => simp [segmentsFrom]
    | succ k =>
      simp only [segmentsFrom, List.getElem?_cons_succ, ih (i + 1) k]
      have : i + 1 + k = i + (k + 1) := by omega
      rw [this]

/-- Claim C2: when chunk `k`'s backend call fails with a non-abort error
and no abort occurs, the batch does not abort: every chunk is attempted,
the placeholder carrying the 1-based part number `k+1` stands in place of
chunk `k`'s transcript, and the final transcript is the concatenation of
all `N` segments in index order with every successful chunk's text
intact. -/
theorem chunk_failure_tolerated (outcomes : List ChunkOutcome) (k : Nat)
    (msg : String)
    (hfail : outcomes[k]? = some (ChunkOutcome.failure msg))
    (hnoabort : ∀ o ∈ outcomes, o ≠ ChunkOutcome.abortedCall) :
    processLargeFile (fun _ => false) outcomes =
      (outcomes.length, .ok (concatSegments (segmentsFrom 0 outcomes))) ∧
    (segmentsFrom 0 outcomes).length = outcomes.length ∧
    (segmentsFrom 0 outcomes)[k]? = some (errorPlaceholder k) ∧
    (∃ pre post, errorPlaceholder k = pre ++ toString (k + 1) ++ post) ∧
    (∀ (j : Nat) (t : String), outcomes[j]? = some (ChunkOutcome.success t) →
      (segmentsFrom 0 outcomes)[j]? = some (t ++ " ")) := by
  refine ⟨?_, segmentsFrom_length outcomes 0, ?_, ?_, ?_⟩
  · unfold processLargeFile
    rw [runChunksAux_no_abort outcomes hnoabort 0 0 ""]
    simp [String.empty_append]
  · rw [segmentsFrom_get outcomes 0 k, hfail]
    simp [segmentOf]
  · exact ⟨" [Error transcribing part ", "] ", rfl⟩
  · intro j t hj
    rw [segmentsFrom_get outcomes 0 j, hj]
    simp [segmentOf]

/-- Claim C2 witness: with outcomes success, failure, success the run makes
all three calls and the final transcript holds the part-2 placeholder
between the two successful texts. -/
theorem chunk_failure_tolerated_witness :
    processLargeFile (fun _ => false)
      [ChunkOutcome.success "A", ChunkOutcome.failure "boom",
       ChunkOutcome.success "C"] =
      (3, .ok "A  [Error transcribing part 2] C ") := by
  have h := chunk_failure_tolerated
    [ChunkOutcome.success "A", ChunkOutcome.failure "boom",
     ChunkOutcome.success "C"] 1 "boom" (by rfl) (by decide)
  rw [h.1]
  rfl

/-- The cancellation flag once it has been set after `i` chunks completed:
the check before chunk `j` (0-based) sees it set exactly when `i ≤ j`. -/
def setAfter (i : Nat) : Nat → Bool := fun j => decide (i ≤ j)

lemma runChunksAux_cancelled (i : Nat) :
    ∀ (outcomes : List ChunkOutcome) (s calls : Nat) (acc : String),
      s ≤ i → i - s ≤ outcomes.length →
      (∀ j, j < i - s → outcomes[j]? ≠ some ChunkOutcome.abortedCall) →
      (runChunksAux (setAfter i) outcomes s calls acc).1 = calls + (i - s) ∧
      (i - s < outcomes.length →
        (runChunksAux (setAfter i) outcomes s calls acc).2 = .error ()) := by
  intro outcomes
  induction outcomes with
  | nil =>
    intro s calls acc hs hlen hno
    refine ⟨?_, ?_⟩
    · have : i - s = 0 := by simpa using hlen
      simp [runChunksAux, this]
    · intro hlt
      simp at hlt
  | cons o rest ih =>
    intro s calls acc hs hlen hno
    by_cases hflag : i ≤ s
    · have hz : i - s = 0 := by omega
      have hstep : runChunksAux (setAfter i) (o :: rest) s calls acc =
          (calls, .error ()) := by
        simp [runChunksAux, setAfter, hflag]
      rw [hstep, hz]
      exact ⟨rfl, fun _ => rfl⟩
    · have ho : o ≠ ChunkOutcome.abortedCall := by
        have h0 := hno 0 (by omega)
        simpa using h0
      have hno2 : ∀ j, j < i - (s + 1) →
          rest[j]? ≠ some ChunkOutcome.abortedCall := by
        intro j hj
        have := hno (j + 1) (by omega)
        simpa using this
      have hlen2 : i - (s + 1) ≤ rest.length := by
        simp at hlen
        omega
      cases o with
      | success t =>
        have hstep : runChunksAux (setAfter i) (ChunkOutcome.success t :: rest)
              s calls acc =
            runChunksAux (setAfter i) rest (s + 1) (calls + 1)
              (acc ++ (t ++ " ")) := by
          simp [runChunksAux, setAfter, hflag]
        rw [hstep]
        have hrec := ih (s + 1) (calls + 1) (acc ++ (t ++ " "))
          (by omega) hlen2 hno2
        refine ⟨by rw [hrec.1]; omega, ?_⟩
        intro hlt
        exact hrec.2 (by simp at hlt; omega)
      | failure m =>
        have hstep : runChunksAux (setAfter i) (ChunkOutcome.failure m :: rest)
              s calls acc =
            runChunksAux (setAfter i) rest (s + 1) (calls + 1)
              (acc ++ errorPlaceholder s) := by
          simp [runChunksAux, setAfter, hflag]
        rw [hstep]
        have hrec := ih (s + 1) (calls + 1) (acc ++ errorPlaceholder s)
          (by omega) hlen2 hno2
        refine ⟨by rw [hrec.1]; omega, ?_⟩
        intro hlt
        exact hrec.2 (by simp at hlt; omega)
      | abortedCall => exact absurd rfl ho

/-- Claim C8: once the cancellation flag is set after chunk `i` completes,
the check before each later chunk throws before its backend call, so no
backend call is made for any chunk past `i`: exactly `i` backend calls
occur, and with chunks remaining the run ends in the abort outcome. -/
theorem cancellation_halts (outcomes : List ChunkOutcome) (i : Nat)
    (hi : i ≤ outcomes.length)
    (hpre : ∀ j, j < i → outcomes[j]? ≠ some ChunkOutcome.abortedCall) :
    (processLargeFile (setAfter i) outcomes).1 = i ∧
    (i < outcomes.length →
      (processLargeFile (setAfter i) outcomes).2 = .error ()) := by
  have h := runChunksAux_cancelled i outcomes 0 0 ""
    (Nat.zero_le i) (by simpa using hi) (by simpa using hpre)
  simpa [processLargeFile] using h

/-- Claim C8 witness: the spec scenario — flag set after chunk 1 of 3 — one
backend call in total, run aborted before chunk 2. -/
theorem cancellation_halts_witness :
    (processLargeFile (setAfter 1)
      [ChunkOutcome.success "A", ChunkOutcome.success "B",
       ChunkOutcome.success "C"]).1 = 1 ∧
    (processLargeFile (setAfter 1)
      [ChunkOutcome.success "A", ChunkOutcome.success "B",
       ChunkOutcome.success "C"]).2 = .error () := by
  have h := cancellation_halts
    [ChunkOutcome.success "A", ChunkOutcome.success "B",
     ChunkOutcome.success "C"] 1 (by decide)
    (by
      intro j hj
      have hj0 : j = 0 := by omega
      subst hj0
      decide)
  exact ⟨h.1, h.2 (by decide)⟩

/-- The fixed prompt template of `generateSummary` (`main.js` lines
754-765) with the transcript interpolated; the indentation whitespace of
the JS template literal is elided and its two contracted words are written
out, neither of which any claim inspects. -/
def summaryPrompt (transcript : String) : String :=
  "I am providing a transcript of a meeting. Please create a concise summary with the following sections:\n\n" ++
  "1. Key Discussion Points - The main topics discussed in bullet points\n" ++
  "2. Key Decisions - Any decisions made during the meeting\n" ++
  "3. Action Items - Tasks assigned or mentioned with responsible parties if specified\n\n" ++
  "Keep the summary clear and focused on the most important information.\n\n" ++
  "Here is the transcript:\n" ++ transcript

/-- The observable outcome of one `generateSummary` invocation: the number
of backend calls made and the result. -/
structure SummaryRun where
  backendCalls : Nat
  result : Except String String

/-- `generateSummary` (`main.js` lines 729-797): a transcript that trims to
empty shows the `No transcript to summarize` toast and returns before any
backend work; otherwise the summary prompt is built and exactly one backend
call is made, whose response text is returned. -/
def generateSummary (backend : String → String) (transcript : String) :
    SummaryRun :=
  if jsTrim transcript = "" then
    { backendCalls := 0, result := .error "No transcript to summarize" }
  else
    { backendCalls := 1, result := .ok (backend (summaryPrompt transcript)) }

/-- Claim C9: a transcript that is empty after trimming fails with the
nothing-to-summarize condition and zero backend calls, and a backend call
is made only when the trimmed transcript is non-empty. -/
theorem summary_requires_nonempty (backend : String → String)
    (transcript : String) :
    (jsTrim transcript = "" →
      generateSummary backend transcript =
        { backendCalls := 0, result := .error "No transcript to summarize" }) ∧
    (0 < (generateSummary backend transcript).backendCalls →
      jsTrim transcript ≠ "") := by
  constructor
  · intro h
    simp [generateSummary, h]
  · intro hcalls heq
    simp [generateSummary, heq] at hcalls

/-- Claim C9 witness: a whitespace-only transcript makes zero backend calls
and fails with the nothing-to-summarize condition. -/
theorem summary_requires_nonempty_witness :
    generateSummary (fun _ => "summary") " \t\n " =
      { backendCalls := 0, result := .error "No transcript to summarize" } :=
  (summary_requires_nonempty (fun _ => "summary") " \t\n ").1 (by decide)
